import Mathlib

/-!
Compatibility header set of the Ruby extension.

The repository fragment consists of three C headers:

* `packages/ruby/ext/spikard_rb/native/include/msvc_compat/unistd.h`
* `packages/ruby/ext/spikard_rb/native/include/msvc_compat/ieeefp.h`
* `packages/ruby/vendor/crates/spikard-rb/bindgen/include/unistd.h`

Each header is embedded line by line as a list of preprocessor lines
(comments and blank lines are removed, as translation phase 3 does), and
the headers are given meaning by a small interpreter of the C preprocessor:
conditional groups, `#define`, `#pragma once`, rescanning expansion of
object-like definitions in text lines, and `#include`, `#include_next` and
`__has_include` resolved along an include search path.  A header that is not
found stops the translation at that directive.
-/

namespace Spikard

/-! ## Preprocessor lines -/

/-- A preprocessing token, kept as its spelling. -/
abbrev Tok := String

/-- One logical line of a header. -/
inductive Line where
  | pragmaOnce
  | ifdefLine (name : String)
  | ifndefLine (name : String)
  | ifHasInclude (header : String)
  | elseLine
  | endifLine
  | includeSys (header : String)
  | includeNext (header : String)
  | define (name : String) (body : List Tok)
  | text (toks : List Tok)
  deriving DecidableEq, Repr

/-! ## The three headers, line by line -/

/-- Path of the extension variant of `unistd.h`. -/
def extUnistdPath : String :=
  "packages/ruby/ext/spikard_rb/native/include/msvc_compat/unistd.h"

/-- Lines of `msvc_compat/unistd.h`. -/
def extUnistd : List Line :=
  [ .pragmaOnce,
    .ifdefLine "_MSC_VER",
    .includeSys "io.h",
    .includeSys "process.h",
    .includeSys "direct.h",
    .text ["typedef", "long", "ssize_t", ";"],
    .text ["typedef", "int", "pid_t", ";"],
    .define "access" ["_access"],
    .define "dup2" ["_dup2"],
    .define "execve" ["_execve"],
    .define "ftruncate" ["_chsize"],
    .define "unlink" ["_unlink"],
    .define "getpid" ["_getpid"],
    .define "isatty" ["_isatty"],
    .define "lseek" ["_lseek"],
    .define "read" ["_read"],
    .define "write" ["_write"],
    .define "close" ["_close"],
    .define "sleep" ["_sleep"],
    .elseLine,
    .includeNext "unistd.h",
    .endifLine ]

/-- Path of the floating-point compatibility header. -/
def ieeefpPath : String :=
  "packages/ruby/ext/spikard_rb/native/include/msvc_compat/ieeefp.h"

/-- Lines of `msvc_compat/ieeefp.h`. -/
def ieeefp : List Line :=
  [ .pragmaOnce,
    .ifdefLine "_MSC_VER",
    .includeSys "float.h",
    .elseLine,
    .ifHasInclude "ieeefp.h",
    .includeSys "ieeefp.h",
    .endifLine,
    .endifLine ]

/-- Path of the bindings-generation variant of `unistd.h`. -/
def bindgenUnistdPath : String :=
  "packages/ruby/vendor/crates/spikard-rb/bindgen/include/unistd.h"

/-- Lines of `bindgen/include/unistd.h`. -/
def bindgenUnistd : List Line :=
  [ .pragmaOnce,
    .text ["typedef", "long", "ssize_t", ";"],
    .ifndefLine "_SSIZE_T_DEFINED",
    .define "_SSIZE_T_DEFINED" [],
    .endifLine,
    .ifndefLine "_PID_T_DEFINED",
    .define "_PID_T_DEFINED" [],
    .text ["typedef", "int", "pid_t", ";"],
    .endifLine ]

/-! ## Preprocessor state -/

/-- Table of object-like definitions: name and replacement list, most recent
first. -/
abbrev DefTable := List (String × List Tok)

/-- Replacement list of `n`, when `n` is defined. -/
def lookupDef (n : String) : DefTable → Option (List Tok)
  | [] => none
  | (m, b) :: rest => if n = m then some b else lookupDef n rest

/-- Table without any definition of `n`. -/
def dropDef (n : String) (tbl : DefTable) : DefTable :=
  tbl.filter (fun p => p.1 != n)

/-- Table after `#define n b`: the new definition replaces an older one. -/
def addDef (n : String) (b : List Tok) (tbl : DefTable) : DefTable :=
  (n, b) :: dropDef n tbl

/-- State carried from one line to the next and from one header to the
next: the definitions in force, and the files already seen that carry
`#pragma once`. -/
structure PPState where
  defs : DefTable
  once : List String
  deriving DecidableEq, Repr

/-- Answer of `#ifdef n`. -/
def PPState.isDefined (st : PPState) (n : String) : Bool :=
  (lookupDef n st.defs).isSome

/-! ## The include search path -/

/-- A directory of the include search path: its path and the names of the
headers it holds. -/
structure Dir where
  path : String
  headers : List String
  deriving DecidableEq, Repr

/-- Path of the header named `h` in the directory. -/
def Dir.file (d : Dir) (h : String) : String :=
  d.path ++ "/" ++ h

/-- The build environment: the directories searched for `<...>` headers, in
search order. -/
structure Env where
  dirs : List Dir
  deriving DecidableEq, Repr

/-- First file named `h` along the directories `ds`. -/
def resolveIn (h : String) : List Dir → Option String
  | [] => none
  | d :: ds => if d.headers.contains h then some (d.file h) else resolveIn h ds

/-- Directories that follow the one in which the file `file` lives, when it
lives on the search path. -/
def dirsAfter (file : String) : List Dir → Option (List Dir)
  | [] => none
  | d :: ds =>
    if d.headers.any (fun n => d.file n == file) then some ds else dirsAfter file ds

/-- File that `#include <h>` finds: the search starts at the head of the
search path, whichever file holds the directive. -/
def Env.resolve (env : Env) (h : String) : Option String :=
  resolveIn h env.dirs

/-- File that `#include_next <h>` finds from inside `file`: the search
resumes after the directory of `file`; from a file that is not on the search
path it is the search of `#include`. -/
def Env.resolveNext (env : Env) (file h : String) : Option String :=
  match dirsAfter file env.dirs with
  | some ds => resolveIn h ds
  | none => resolveIn h env.dirs

/-- Answer of `__has_include(<h>)`: whether `#include <h>` would find a
file. -/
def Env.hasInclude (env : Env) (h : String) : Bool :=
  (env.resolve h).isSome

/-! ## Expansion of text lines -/

/-- Rescanning expansion of object-like definitions.  A name being replaced
is taken out of the table while its replacement list is rescanned, so a
name is never replaced inside its own expansion; every replacement
therefore shortens the table, and `fuel` bounds the nesting depth. -/
def expandWith : Nat → DefTable → List Tok → List Tok
  | 0, _, ts => ts
  | fuel + 1, tbl, ts =>
    (ts.map fun t =>
      match lookupDef t tbl with
      | none => [t]
      | some body => expandWith fuel (dropDef t tbl) body).flatten

/-- Expansion with fuel for the deepest possible nesting. -/
def expand (tbl : DefTable) (ts : List Tok) : List Tok :=
  expandWith (tbl.length + 1) tbl ts

/-! ## Interpreter -/

/-- What processing a header produces, in order: every include directive it
executes (whatever file the directive finds), every definition it makes and
every text line it hands to the compiler proper. -/
inductive Event where
  | includeSys (header : String)
  | includeNext (header : String)
  | define (name : String) (body : List Tok)
  | text (toks : List Tok)
  deriving DecidableEq, Repr

/-- An open conditional group. -/
structure Cond where
  enclosing : Bool
  holds : Bool
  inElse : Bool
  deriving DecidableEq, Repr

/-- Whether the lines of the current branch of the group are processed. -/
def Cond.live (f : Cond) : Bool :=
  f.enclosing && (f.holds != f.inElse)

/-- Structural errors of the conditional groups. -/
inductive PPError where
  | elseWithoutIf
  | elseAfterElse
  | endifWithoutIf
  | unterminatedConditional
  deriving DecidableEq, Repr

/-- Interpreter context inside one header: the state, the open conditional
groups, the events so far, the files whose contents the include directives
brought in, and the header whose absence stopped the translation. -/
structure Ctx where
  st : PPState
  conds : List Cond
  out : List Event
  entered : List String
  fatal : Option String
  deriving DecidableEq, Repr

/-- Whether the current line is processed or skipped. -/
def Ctx.live (c : Ctx) : Bool :=
  match c.conds with
  | [] => true
  | f :: _ => f.live

/-- Open a conditional group whose controlling condition evaluated to `b`. -/
def Ctx.push (c : Ctx) (b : Bool) : Ctx :=
  { c with conds := { enclosing := c.live, holds := b, inElse := false } :: c.conds }

/-- Add an event to the output. -/
def Ctx.emit (c : Ctx) (e : Event) : Ctx :=
  { c with out := c.out ++ [e] }

/-- An include directive found the file `p`: its contents are brought in
unless the file was seen before and carries `#pragma once`. -/
def Ctx.enter (c : Ctx) (p : String) : Ctx :=
  { c with entered := c.entered ++ (if c.st.once.contains p then [] else [p]) }

/-- An include directive found no file for the header `h`: the translation
stops with a fatal diagnostic. -/
def Ctx.stop (c : Ctx) (h : String) : Ctx :=
  { c with fatal := some h }

/-- Process the lines of the header `file`.  The result is an error when the
conditional groups of the header are malformed.  When an include directive
finds no file the remaining lines are not processed: the result is the
context at that directive, with the directive among the events and the
missing header in `fatal`. -/
def run (env : Env) (file : String) : Ctx → List Line → Except PPError Ctx
  | c, [] =>
    if c.conds.isEmpty then .ok c else .error .unterminatedConditional
  | c, .pragmaOnce :: rest =>
    if c.live then
      run env file { c with st := { c.st with once := file :: c.st.once } } rest
    else run env file c rest
  | c, .ifdefLine n :: rest => run env file (c.push (c.st.isDefined n)) rest
  | c, .ifndefLine n :: rest => run env file (c.push (!c.st.isDefined n)) rest
  | c, .ifHasInclude h :: rest => run env file (c.push (env.hasInclude h)) rest
  | c, .elseLine :: rest =>
    match c.conds with
    | [] => .error .elseWithoutIf
    | f :: fs =>
      if f.inElse then .error .elseAfterElse
      else run env file { c with conds := { f with inElse := true } :: fs } rest
  | c, .endifLine :: rest =>
    match c.conds with
    | [] => .error .endifWithoutIf
    | _ :: fs => run env file { c with conds := fs } rest
  | c, .includeSys h :: rest =>
    if c.live then
      match env.resolve h with
      | none => .ok ((c.emit (.includeSys h)).stop h)
      | some p => run env file ((c.emit (.includeSys h)).enter p) rest
    else run env file c rest
  | c, .includeNext h :: rest =>
    if c.live then
      match env.resolveNext file h with
      | none => .ok ((c.emit (.includeNext h)).stop h)
      | some p => run env file ((c.emit (.includeNext h)).enter p) rest
    else run env file c rest
  | c, .define n b :: rest =>
    run env file
      (if c.live then
        { (c.emit (.define n b)) with st := { c.st with defs := addDef n b c.st.defs } }
      else c) rest
  | c, .text ts :: rest =>
    run env file (if c.live then c.emit (.text (expand c.st.defs ts)) else c) rest

/-- Include the header `file` with lines `ls` in state `st`: a header that
carries `#pragma once` and was seen before contributes nothing; otherwise
its lines are processed. -/
def includeFile (env : Env) (st : PPState) (file : String) (ls : List Line) :
    Except PPError Ctx :=
  if st.once.contains file then
    .ok { st := st, conds := [], out := [], entered := [], fatal := none }
  else run env file { st := st, conds := [], out := [], entered := [], fatal := none } ls

/-- State and events of including the header `file` in state `st`, up to the
end of the header or to the directive at which the translation stopped. -/
def preprocess (env : Env) (st : PPState) (file : String) (ls : List Line) :
    Except PPError (PPState × List Event) :=
  (includeFile env st file ls).map fun c => (c.st, c.out)

/-- Header whose absence stopped the translation while `file` was included,
if any. -/
def fatalOf (env : Env) (st : PPState) (file : String) (ls : List Line) : Option String :=
  match includeFile env st file ls with
  | .ok c => c.fatal
  | .error _ => none

/-- Files whose contents the include directives of `file` brought in. -/
def enteredOf (env : Env) (st : PPState) (file : String) (ls : List Line) : List String :=
  match includeFile env st file ls with
  | .ok c => c.entered
  | .error _ => []

/-! ## Reading the output -/

/-- Definitions made by an inclusion, in order. -/
def definesOf : List Event → DefTable
  | [] => []
  | .define n b :: es => (n, b) :: definesOf es
  | _ :: es => definesOf es

/-- Headers requested by an inclusion through `#include`, in order. -/
def includesOf : List Event → List String
  | [] => []
  | .includeSys h :: es => h :: includesOf es
  | _ :: es => includesOf es

/-- Headers requested by an inclusion through `#include_next`, in order. -/
def includeNextsOf : List Event → List String
  | [] => []
  | .includeNext h :: es => h :: includeNextsOf es
  | _ :: es => includeNextsOf es

/-- A declaration `typedef T... N ;` read as the name `N` with its type. -/
def parseTypedef : List Tok → Option (String × List Tok)
  | "typedef" :: rest =>
    match rest.reverse with
    | ";" :: name :: tyRev => if tyRev.isEmpty then none else some (name, tyRev.reverse)
    | _ => none
  | _ => none

/-- Type definitions made by an inclusion, in order. -/
def typedefsOf : List Event → List (String × List Tok)
  | [] => []
  | .text ts :: es =>
    match parseTypedef ts with
    | some d => d :: typedefsOf es
    | none => typedefsOf es
  | _ :: es => typedefsOf es

/-- Text lines of an inclusion that are not type definitions (function
declarations and any other declaration). -/
def otherDeclsOf : List Event → List (List Tok)
  | [] => []
  | .text ts :: es =>
    match parseTypedef ts with
    | some _ => otherDeclsOf es
    | none => ts :: otherDeclsOf es
  | _ :: es => otherDeclsOf es


/-! ## The rename table as the specification lists it -/

/-- The rename table of the specification, row by row: POSIX name and MSVC
target. -/
def specRenameTable : List (String × String) :=
  [ ("access", "_access"),
    ("dup2", "_dup2"),
    ("execve", "_execve"),
    ("ftruncate", "_chsize"),
    ("unlink", "_unlink"),
    ("getpid", "_getpid"),
    ("isatty", "_isatty"),
    ("lseek", "_lseek"),
    ("read", "_read"),
    ("write", "_write"),
    ("close", "_close"),
    ("sleep", "_sleep") ]

/-- The specification's table as a table of definitions: every target is a
replacement list of one token. -/
def specRenameDefs : DefTable :=
  specRenameTable.map fun r => (r.1, [r.2])

/-- Names the extension `unistd.h` is specified to rename. -/
def renameKeys : List String :=
  specRenameTable.map Prod.fst

/-- A table of definitions read as a function on identifiers: a name defined
as a single token goes to that token, every other name to itself. -/
def renameOf (tbl : DefTable) (n : String) : String :=
  match lookupDef n tbl with
  | some [t] => t
  | _ => n

/-! ## States and environments for concrete runs -/

/-- A translation unit compiled by MSVC before any header is seen: the
compiler predefines `_MSC_VER`. -/
def msvcStart : PPState :=
  { defs := [("_MSC_VER", ["1900"])], once := [] }

/-- A translation unit of another toolchain before any header is seen. -/
def otherStart : PPState :=
  { defs := [], once := [] }

/-- A translation unit in which another header has already defined `ssize_t`
and `pid_t` and set both guard names. -/
def guardedStart : PPState :=
  { defs := [("_PID_T_DEFINED", []), ("_SSIZE_T_DEFINED", [])], once := [] }

/-- A translation unit compiled by MSVC in which an earlier configuration
header has done `#define ssize_t __int64`. -/
def configuredStart : PPState :=
  { defs := [("ssize_t", ["__int64"]), ("_MSC_VER", ["1900"])], once := [] }

/-- The directory of the compatibility headers, as it stands on the include
search path. -/
def msvcCompatDir : Dir :=
  { path := "packages/ruby/ext/spikard_rb/native/include/msvc_compat",
    headers := ["ieeefp.h", "unistd.h"] }

/-- A Windows build environment: the compatibility directory, then the
platform headers the MSVC branches ask for; no system `ieeefp.h` or
`unistd.h` exists. -/
def windowsEnv : Env :=
  { dirs := [ msvcCompatDir,
              { path := "msvc/include",
                headers := ["io.h", "process.h", "direct.h", "float.h"] } ] }

/-- A BSD-like build environment: the compatibility directory, then a system
directory in which `ieeefp.h`, `unistd.h` and `float.h` exist. -/
def bsdEnv : Env :=
  { dirs := [ msvcCompatDir,
              { path := "/usr/include", headers := ["ieeefp.h", "unistd.h", "float.h"] } ] }

/-- A build environment in which only the compatibility directory is on the
search path: none of the platform headers is found. -/
def bareEnv : Env :=
  { dirs := [ msvcCompatDir ] }

/-- Headers the MSVC branch of the extension `unistd.h` includes. -/
def extUnistdHeaders : List String :=
  ["io.h", "process.h", "direct.h"]

/-- Whether every header of `hs` is found on the search path. -/
def Env.resolvesAll (env : Env) (hs : List String) : Bool :=
  hs.all env.hasInclude

/-- Tokens of the two type definitions. -/
def declTokens : List Tok :=
  ["typedef", "long", "int", "ssize_t", "pid_t", ";"]

/-- No definition in force replaces one of the tokens `ts`. -/
def PPState.keeps (st : PPState) (ts : List Tok) : Bool :=
  ts.all fun t => (lookupDef t st.defs).isNone

/-- The definitions in force after including `file` in state `st` (those of
`st` when the inclusion fails). -/
def defsAfter (env : Env) (st : PPState) (file : String) (ls : List Line) : DefTable :=
  match preprocess env st file ls with
  | .ok r => r.1.defs
  | .error _ => st.defs

/-- The events of including `file` in state `st` (none when the inclusion
fails). -/
def eventsOf (env : Env) (st : PPState) (file : String) (ls : List Line) : List Event :=
  match preprocess env st file ls with
  | .ok r => r.2
  | .error _ => []

/-- The definitions the extension `unistd.h` makes in a fresh MSVC
translation unit. -/
def extUnistdDefines : DefTable :=
  definesOf (eventsOf windowsEnv msvcStart extUnistdPath extUnistd)

/-- The definitions in force in a fresh MSVC translation unit after it has
included the extension `unistd.h`. -/
def msvcDefs : DefTable :=
  defsAfter windowsEnv msvcStart extUnistdPath extUnistd

/-! ## Integer types of the targets -/

/-- Modelled from the spec: the integer widths of a compilation target, which
no source file declares.  The widths are those of `int`, `long` and `size_t`
in bits. -/
structure DataModel where
  intBits : Nat
  longBits : Nat
  sizeBits : Nat
  deriving DecidableEq, Repr

/-- Modelled from the spec: the 32-bit MSVC target, which no source file
declares (`int`, `long` and `size_t` are 32 bits wide). -/
def msvc32 : DataModel :=
  { intBits := 32, longBits := 32, sizeBits := 32 }

/-- Modelled from the spec: the 64-bit MSVC target, which no source file
declares (`int` and `long` are 32 bits wide, `size_t` is 64 bits wide). -/
def msvc64 : DataModel :=
  { intBits := 32, longBits := 32, sizeBits := 64 }

/-- The MSVC targets. -/
def msvcTargets : List DataModel :=
  [msvc32, msvc64]

/-- Width of a type given by its tokens. -/
def typeBits (dm : DataModel) : List Tok → Option Nat
  | ["int"] => some dm.intBits
  | ["long"] => some dm.longBits
  | _ => none

/-- Type a name was given by a list of type definitions. -/
def typeOfName (n : String) : List (String × List Tok) → Option (List Tok)
  | [] => none
  | (m, ty) :: rest => if n = m then some ty else typeOfName n rest

/-- Width of the type that the events of an inclusion give to the name
`n`. -/
def widthOf (dm : DataModel) (n : String) (es : List Event) : Option Nat :=
  (typeOfName n (typedefsOf es)).bind (typeBits dm)

/-- Largest value of a signed two-complement integer of `w` bits. -/
def signedMax (w : Nat) : Int :=
  2 ^ (w - 1) - 1

/-- Smallest value of a signed two-complement integer of `w` bits. -/
def signedMin (w : Nat) : Int :=
  -(2 ^ (w - 1))

/-- Whether a signed two-complement integer of `w` bits represents `v`. -/
def fits (w : Nat) (v : Int) : Bool :=
  decide (signedMin w ≤ v) && decide (v ≤ signedMax w)


/-! ## Basic facts about tables -/

theorem lookupDef_dropDef (n m : String) (tbl : DefTable) :
    lookupDef n (dropDef m tbl) = if n = m then none else lookupDef n tbl := by
  induction tbl with
  | nil => simp [dropDef, lookupDef]
  | cons p rest ih =>
    obtain ⟨k, b⟩ := p
    by_cases hk : k = m
    · subst hk
      have : dropDef k ((k, b) :: rest) = dropDef k rest := by simp [dropDef]
      rw [this, ih]
      by_cases hn : n = k <;> simp [lookupDef, hn]
    · have : dropDef m ((k, b) :: rest) = (k, b) :: dropDef m rest := by simp [dropDef, hk]
      rw [this]
      by_cases hn : n = k
      · subst hn; simp [lookupDef, hk]
      · by_cases hm : n = m
        · subst hm; simp [lookupDef, hn, ih]
        · simp [lookupDef, hn, hm, ih]

theorem lookupDef_addDef (n m : String) (b : List Tok) (tbl : DefTable) :
    lookupDef n (addDef m b tbl) = if n = m then some b else lookupDef n tbl := by
  by_cases h : n = m <;> simp [addDef, lookupDef, lookupDef_dropDef, h]

/-! ## Facts about expansion -/

theorem expandWith_nil (k : Nat) (tbl : DefTable) : expandWith k tbl [] = [] := by
  cases k <;> simp [expandWith]

theorem expandWith_append (k : Nat) (tbl : DefTable) (as bs : List Tok) :
    expandWith k tbl (as ++ bs) = expandWith k tbl as ++ expandWith k tbl bs := by
  cases k <;> simp [expandWith]

theorem expandWith_cons (k : Nat) (tbl : DefTable) (t : Tok) (ts : List Tok) :
    expandWith k tbl (t :: ts) = expandWith k tbl [t] ++ expandWith k tbl ts := by
  rw [← expandWith_append]; rfl

theorem expandWith_undefined (k : Nat) (tbl : DefTable) (ts : List Tok)
    (h : ∀ t ∈ ts, lookupDef t tbl = none) : expandWith k tbl ts = ts := by
  cases k with
  | zero => rfl
  | succ k =>
    induction ts with
    | nil => simp [expandWith]
    | cons t ts ih =>
      have ht : lookupDef t tbl = none := h t (List.mem_cons_self _ _)
      have hts : ∀ x ∈ ts, lookupDef x tbl = none := fun x hx => h x (List.mem_cons_of_mem _ hx)
      have := ih hts
      simp only [expandWith] at this ⊢
      simp [ht, this]

theorem expand_append (tbl : DefTable) (as bs : List Tok) :
    expand tbl (as ++ bs) = expand tbl as ++ expand tbl bs :=
  expandWith_append _ _ _ _

theorem expand_cons (tbl : DefTable) (t : Tok) (ts : List Tok) :
    expand tbl (t :: ts) = expand tbl [t] ++ expand tbl ts :=
  expandWith_cons _ _ _ _

theorem expand_undefined (tbl : DefTable) (ts : List Tok)
    (h : ∀ t ∈ ts, lookupDef t tbl = none) : expand tbl ts = ts :=
  expandWith_undefined _ _ _ h

theorem expandWith_defined (k : Nat) (tbl : DefTable) (t : Tok) (body : List Tok)
    (h : lookupDef t tbl = some body) :
    expandWith (k + 1) tbl [t] = expandWith k (dropDef t tbl) body := by
  simp [expandWith, h]

/-- A replaced name has a definition to take out, so the table it is
rescanned with is shorter. -/
theorem length_dropDef_lt (t : Tok) (tbl : DefTable) (body : List Tok)
    (h : lookupDef t tbl = some body) : (dropDef t tbl).length < tbl.length := by
  induction tbl with
  | nil => simp [lookupDef] at h
  | cons p rest ih =>
    obtain ⟨m, b⟩ := p
    by_cases hm : m = t
    · subst hm
      have : dropDef m ((m, b) :: rest) = dropDef m rest := by simp [dropDef]
      rw [this]
      exact Nat.lt_succ_of_le (List.length_filter_le _ _)
    · have hne : ¬ t = m := fun e => hm e.symm
      have : dropDef t ((m, b) :: rest) = (m, b) :: dropDef t rest := by simp [dropDef, hm]
      rw [this]
      simp only [lookupDef, hne, if_false] at h
      simpa using ih h

/-- The fuel of `expand` is never used up: more fuel gives the same
expansion. -/
theorem expandWith_fuel (k : Nat) : ∀ (j : Nat) (tbl : DefTable) (ts : List Tok),
    tbl.length < k → expandWith (k + j) tbl ts = expandWith k tbl ts := by
  induction k with
  | zero => intro j tbl ts h; exact absurd h (Nat.not_lt_zero _)
  | succ k ih =>
    intro j tbl ts h
    have e : k + 1 + j = (k + j) + 1 := by omega
    rw [e]
    induction ts with
    | nil => simp [expandWith]
    | cons t ts iht =>
      rw [expandWith_cons, expandWith_cons (k + 1), iht]
      congr 1
      cases hl : lookupDef t tbl with
      | none => simp [expandWith, hl]
      | some body =>
        rw [expandWith_defined _ _ _ _ hl, expandWith_defined _ _ _ _ hl]
        have hlt := length_dropDef_lt t tbl body hl
        exact ih j _ _ (by omega)

/-! ## Running the extension variant of `unistd.h` -/

theorem resolvesAll_extUnistdHeaders (env : Env)
    (h : env.resolvesAll extUnistdHeaders = true) :
    ∃ p1 p2 p3, env.resolve "io.h" = some p1 ∧ env.resolve "process.h" = some p2 ∧
      env.resolve "direct.h" = some p3 := by
  simp only [Env.resolvesAll, extUnistdHeaders, List.all_cons, List.all_nil, Bool.and_true,
    Bool.and_eq_true, Env.hasInclude, Option.isSome_iff_exists] at h
  obtain ⟨⟨p1, h1⟩, ⟨p2, h2⟩, ⟨p3, h3⟩⟩ := h
  exact ⟨p1, p2, p3, h1, h2, h3⟩

/-- Result of including the extension `unistd.h` on the MSVC branch where the
three platform headers are found. -/
theorem preprocess_extUnistd_msvc (env : Env) (st : PPState)
    (hmsvc : st.isDefined "_MSC_VER" = true)
    (hfresh : extUnistdPath ∉ st.once)
    (hres : env.resolvesAll extUnistdHeaders = true) :
    preprocess env st extUnistdPath extUnistd =
      .ok ({ defs :=
              addDef "sleep" ["_sleep"] (addDef "close" ["_close"]
              (addDef "write" ["_write"] (addDef "read" ["_read"]
              (addDef "lseek" ["_lseek"] (addDef "isatty" ["_isatty"]
              (addDef "getpid" ["_getpid"] (addDef "unlink" ["_unlink"]
              (addDef "ftruncate" ["_chsize"] (addDef "execve" ["_execve"]
              (addDef "dup2" ["_dup2"] (addDef "access" ["_access"] st.defs))))))))))),
             once := extUnistdPath :: st.once },
           [ .includeSys "io.h", .includeSys "process.h", .includeSys "direct.h",
             .text (expand st.defs ["typedef", "long", "ssize_t", ";"]),
             .text (expand st.defs ["typedef", "int", "pid_t", ";"]),
             .define "access" ["_access"], .define "dup2" ["_dup2"],
             .define "execve" ["_execve"], .define "ftruncate" ["_chsize"],
             .define "unlink" ["_unlink"], .define "getpid" ["_getpid"],
             .define "isatty" ["_isatty"], .define "lseek" ["_lseek"],
             .define "read" ["_read"], .define "write" ["_write"],
             .define "close" ["_close"], .define "sleep" ["_sleep"] ]) := by
  obtain ⟨p1, p2, p3, h1, h2, h3⟩ := resolvesAll_extUnistdHeaders env hres
  simp only [PPState.isDefined] at hmsvc
  simp [preprocess, includeFile, hfresh, extUnistd, run, Ctx.live, Ctx.push, Ctx.emit,
    Ctx.enter, Cond.live, hmsvc, Except.map, PPState.isDefined, h1, h2, h3]

/-- Where the three platform headers are found, the translation does not
stop inside the extension `unistd.h` on the MSVC branch. -/
theorem fatalOf_extUnistd_msvc (env : Env) (st : PPState)
    (hmsvc : st.isDefined "_MSC_VER" = true)
    (hfresh : extUnistdPath ∉ st.once)
    (hres : env.resolvesAll extUnistdHeaders = true) :
    fatalOf env st extUnistdPath extUnistd = none := by
  obtain ⟨p1, p2, p3, h1, h2, h3⟩ := resolvesAll_extUnistdHeaders env hres
  simp only [PPState.isDefined] at hmsvc
  simp [fatalOf, includeFile, hfresh, extUnistd, run, Ctx.live, Ctx.push, Ctx.emit,
    Ctx.enter, Cond.live, hmsvc, PPState.isDefined, h1, h2, h3]

/-- Result of including the extension `unistd.h` on the other branch. -/
theorem preprocess_extUnistd_other (env : Env) (st : PPState)
    (hmsvc : st.isDefined "_MSC_VER" = false)
    (hfresh : extUnistdPath ∉ st.once) :
    preprocess env st extUnistdPath extUnistd =
      .ok ({ defs := st.defs, once := extUnistdPath :: st.once },
           [ .includeNext "unistd.h" ]) := by
  simp only [PPState.isDefined] at hmsvc
  cases hn : env.resolveNext extUnistdPath "unistd.h" <;>
  simp [preprocess, includeFile, hfresh, extUnistd, run, Ctx.live, Ctx.push, Ctx.emit,
    Ctx.enter, Ctx.stop, Cond.live, hmsvc, Except.map, PPState.isDefined, hn]

/-! ## Running the floating-point header -/

/-- Result of including `ieeefp.h` on the MSVC branch. -/
theorem preprocess_ieeefp_msvc (env : Env) (st : PPState)
    (hmsvc : st.isDefined "_MSC_VER" = true)
    (hfresh : ieeefpPath ∉ st.once) :
    preprocess env st ieeefpPath ieeefp =
      .ok ({ defs := st.defs, once := ieeefpPath :: st.once }, [ .includeSys "float.h" ]) := by
  simp only [PPState.isDefined] at hmsvc
  cases hn : env.resolve "float.h" <;>
  simp [preprocess, includeFile, hfresh, ieeefp, run, Ctx.live, Ctx.push, Ctx.emit,
    Ctx.enter, Ctx.stop, Cond.live, hmsvc, Except.map, PPState.isDefined, hn]

/-- Full result of including `ieeefp.h` on the other branch: the include
directive is executed exactly when the probe finds a file, and the file it
finds is the one the probe found. -/
theorem includeFile_ieeefp_other (env : Env) (st : PPState)
    (hmsvc : st.isDefined "_MSC_VER" = false)
    (hfresh : ieeefpPath ∉ st.once) :
    includeFile env st ieeefpPath ieeefp =
      .ok { st := { defs := st.defs, once := ieeefpPath :: st.once },
            conds := [],
            out := (match env.resolve "ieeefp.h" with
              | some _ => [ .includeSys "ieeefp.h" ]
              | none => []),
            entered := (match env.resolve "ieeefp.h" with
              | some p => if (ieeefpPath :: st.once).contains p then [] else [p]
              | none => []),
            fatal := none } := by
  simp only [PPState.isDefined] at hmsvc
  cases hn : env.resolve "ieeefp.h" <;>
  simp [includeFile, hfresh, ieeefp, run, Ctx.live, Ctx.push, Ctx.emit,
    Ctx.enter, Ctx.stop, Cond.live, hmsvc, PPState.isDefined, hn, Env.hasInclude]

/-! ## Running the bindings-generation variant of `unistd.h` -/

/-- A header seen before that carries `#pragma once` contributes nothing. -/
theorem preprocess_seen (env : Env) (st : PPState) (file : String) (ls : List Line)
    (h : file ∈ st.once) : preprocess env st file ls = .ok (st, []) := by
  simp [preprocess, includeFile, h, Except.map]

/-- Result of including the bindings-generation stub. -/
theorem preprocess_bindgenUnistd (env : Env) (st : PPState)
    (hfresh : bindgenUnistdPath ∉ st.once) :
    preprocess env st bindgenUnistdPath bindgenUnistd =
      .ok ({ defs :=
               (if st.isDefined "_PID_T_DEFINED" then id else addDef "_PID_T_DEFINED" [])
                 ((if st.isDefined "_SSIZE_T_DEFINED" then id
                   else addDef "_SSIZE_T_DEFINED" []) st.defs),
             once := bindgenUnistdPath :: st.once },
           [ .text (expand st.defs ["typedef", "long", "ssize_t", ";"]) ] ++
           (if st.isDefined "_SSIZE_T_DEFINED" then []
            else [ .define "_SSIZE_T_DEFINED" [] ]) ++
           (if st.isDefined "_PID_T_DEFINED" then []
            else [ .define "_PID_T_DEFINED" [],
                   .text (expand
                     (addDef "_PID_T_DEFINED" []
                       ((if st.isDefined "_SSIZE_T_DEFINED" then id
                         else addDef "_SSIZE_T_DEFINED" []) st.defs))
                     ["typedef", "int", "pid_t", ";"]) ])) := by
  simp only [PPState.isDefined]
  rcases Bool.eq_false_or_eq_true (lookupDef "_SSIZE_T_DEFINED" st.defs).isSome with hs | hs <;>
  rcases Bool.eq_false_or_eq_true (lookupDef "_PID_T_DEFINED" st.defs).isSome with hq | hq <;>
  simp [preprocess, includeFile, hfresh, bindgenUnistd, run, Ctx.live, Ctx.push, Ctx.emit, Cond.live,
    Except.map, PPState.isDefined, hs, hq, lookupDef_addDef]

/-! ## Claims about the extension variant of `unistd.h` -/

/-- C1 fails where a platform header is missing: with `_MSC_VER` defined and
no `io.h` on the search path, the translation stops at `#include <io.h>`,
the first line of the MSVC branch; the extension `unistd.h` makes no
definition, and `access` stays undefined. -/
theorem extUnistd_msvc_stops_without_io :
    msvcStart.isDefined "_MSC_VER" = true ∧
    bareEnv.hasInclude "io.h" = false ∧
    preprocess bareEnv msvcStart extUnistdPath extUnistd =
      .ok ({ defs := msvcStart.defs, once := [extUnistdPath] }, [ .includeSys "io.h" ]) ∧
    fatalOf bareEnv msvcStart extUnistdPath extUnistd = some "io.h" ∧
    definesOf (eventsOf bareEnv msvcStart extUnistdPath extUnistd) = [] ∧
    lookupDef "access" (defsAfter bareEnv msvcStart extUnistdPath extUnistd) = none :=
  ⟨by decide, by decide, rfl, by decide, by decide, by decide⟩

/-- C1, amended: when the extension `unistd.h` is included for the first time
with `_MSC_VER` defined and `io.h`, `process.h` and `direct.h` are found on
the search path, the translation runs through the header, the definitions
it makes are exactly the twelve rows of the rename table, in the table's
order; afterwards every listed name is defined as its listed target, and
every name outside the table has the definition, or lack of one, it had
before. -/
theorem extUnistd_msvc_defines_renameTable (env : Env) (st : PPState)
    (hmsvc : st.isDefined "_MSC_VER" = true)
    (hfresh : extUnistdPath ∉ st.once)
    (hres : env.resolvesAll extUnistdHeaders = true) :
    ∃ st' out, preprocess env st extUnistdPath extUnistd = .ok (st', out) ∧
      fatalOf env st extUnistdPath extUnistd = none ∧
      definesOf out = specRenameDefs ∧
      (∀ r ∈ specRenameTable, lookupDef r.1 st'.defs = some [r.2]) ∧
      (∀ n, n ∉ renameKeys → lookupDef n st'.defs = lookupDef n st.defs) := by
  refine ⟨_, _, preprocess_extUnistd_msvc env st hmsvc hfresh hres,
    fatalOf_extUnistd_msvc env st hmsvc hfresh hres, ?_, ?_, ?_⟩
  · simp [definesOf, specRenameDefs, specRenameTable]
  · simp [specRenameTable, lookupDef_addDef]
  · intro n hn
    simp only [renameKeys, specRenameTable, List.map, List.mem_cons, List.mem_nil_iff,
      or_false, not_or] at hn
    obtain ⟨h1, h2, h3, h4, h5, h6, h7, h8, h9, h10, h11, h12⟩ := hn
    simp [lookupDef_addDef, h1, h2, h3, h4, h5, h6, h7, h8, h9, h10, h11, h12]

/-- Witness of the amended C1 at a fresh MSVC translation unit in the Windows
environment. -/
theorem extUnistd_msvc_defines_renameTable_witness :
    msvcStart.isDefined "_MSC_VER" = true ∧ extUnistdPath ∉ msvcStart.once ∧
    windowsEnv.resolvesAll extUnistdHeaders = true ∧
    ∃ st' out, preprocess windowsEnv msvcStart extUnistdPath extUnistd = .ok (st', out) ∧
      fatalOf windowsEnv msvcStart extUnistdPath extUnistd = none ∧
      definesOf out = specRenameDefs ∧
      (∀ r ∈ specRenameTable, lookupDef r.1 st'.defs = some [r.2]) ∧
      (∀ n, n ∉ renameKeys → lookupDef n st'.defs = lookupDef n msvcStart.defs) :=
  ⟨by decide, by decide, by decide,
    extUnistd_msvc_defines_renameTable windowsEnv msvcStart (by decide) (by decide)
      (by decide)⟩

/-- C4: when the extension `unistd.h` is included with `_MSC_VER` not defined
(and has not been included before), its whole output is the single directive
`#include_next <unistd.h>`: it makes no definition, no type definition and
no other declaration, and every name, the twelve names of the rename table
among them, keeps the definition or lack of one it had. -/
theorem extUnistd_other_only_delegates (env : Env) (st : PPState)
    (hother : st.isDefined "_MSC_VER" = false)
    (hfresh : extUnistdPath ∉ st.once) :
    ∃ st' out, preprocess env st extUnistdPath extUnistd = .ok (st', out) ∧
      out = [ .includeNext "unistd.h" ] ∧
      definesOf out = [] ∧ typedefsOf out = [] ∧ otherDeclsOf out = [] ∧
      includesOf out = [] ∧
      st'.defs = st.defs ∧
      (∀ r ∈ specRenameTable, lookupDef r.1 st'.defs = lookupDef r.1 st.defs) := by
  refine ⟨_, _, preprocess_extUnistd_other env st hother hfresh, rfl, ?_, ?_, ?_, ?_, rfl, ?_⟩
  · simp [definesOf]
  · simp [typedefsOf]
  · simp [otherDeclsOf]
  · simp [includesOf]
  · intro r _; rfl

/-- Witness of C4 at a fresh translation unit of another toolchain, in an
environment where a system `unistd.h` follows on the search path. -/
theorem extUnistd_other_only_delegates_witness :
    otherStart.isDefined "_MSC_VER" = false ∧ extUnistdPath ∉ otherStart.once ∧
    ∃ st' out, preprocess bsdEnv otherStart extUnistdPath extUnistd = .ok (st', out) ∧
      out = [ .includeNext "unistd.h" ] ∧
      definesOf out = [] ∧ typedefsOf out = [] ∧ otherDeclsOf out = [] ∧
      includesOf out = [] ∧
      st'.defs = otherStart.defs ∧
      (∀ r ∈ specRenameTable, lookupDef r.1 st'.defs = lookupDef r.1 otherStart.defs) :=
  ⟨by decide, by decide,
    extUnistd_other_only_delegates bsdEnv otherStart (by decide) (by decide)⟩

/-! ## Claims about the floating-point header -/

/-- On the branch without `_MSC_VER` the translation never stops inside
`ieeefp.h` and the header makes no definition and no declaration: the
include directive is executed only where the probe found a file. -/
theorem ieeefp_other_never_stops (env : Env) (st : PPState)
    (hother : st.isDefined "_MSC_VER" = false)
    (hfresh : ieeefpPath ∉ st.once) :
    ∃ st' out, preprocess env st ieeefpPath ieeefp = .ok (st', out) ∧
      fatalOf env st ieeefpPath ieeefp = none ∧
      (env.hasInclude "ieeefp.h" = true → out = [ .includeSys "ieeefp.h" ]) ∧
      (env.hasInclude "ieeefp.h" = false → out = []) ∧
      definesOf out = [] ∧ typedefsOf out = [] ∧ otherDeclsOf out = [] ∧
      st'.defs = st.defs := by
  have h := includeFile_ieeefp_other env st hother hfresh
  cases hn : env.resolve "ieeefp.h" with
  | none =>
    rw [hn] at h
    refine ⟨{ defs := st.defs, once := ieeefpPath :: st.once }, [], ?_, ?_, ?_⟩
    · simp only [preprocess, h, Except.map]
    · simp only [fatalOf, h]
    · simp [Env.hasInclude, hn, definesOf, typedefsOf, otherDeclsOf]
  | some p =>
    rw [hn] at h
    refine ⟨{ defs := st.defs, once := ieeefpPath :: st.once }, [ .includeSys "ieeefp.h" ],
      ?_, ?_, ?_⟩
    · simp only [preprocess, h, Except.map]
    · simp only [fatalOf, h]
    · simp [Env.hasInclude, hn, definesOf, typedefsOf, otherDeclsOf]

/-- Where the file that `<ieeefp.h>` finds is the compatibility header
itself, the header brings in no file although the probe is true. -/
theorem ieeefp_other_finds_itself (env : Env) (st : PPState)
    (hother : st.isDefined "_MSC_VER" = false)
    (hfresh : ieeefpPath ∉ st.once)
    (hself : env.resolve "ieeefp.h" = some ieeefpPath) :
    env.hasInclude "ieeefp.h" = true ∧ enteredOf env st ieeefpPath ieeefp = [] := by
  have h := includeFile_ieeefp_other env st hother hfresh
  simp [enteredOf, h, hself, Env.hasInclude]

/-- Where the file that `<ieeefp.h>` finds is another file, not seen before,
the header brings in that file. -/
theorem ieeefp_other_enters_found (env : Env) (st : PPState) (p : String)
    (hother : st.isDefined "_MSC_VER" = false)
    (hfresh : ieeefpPath ∉ st.once)
    (hfound : env.resolve "ieeefp.h" = some p)
    (hne : p ≠ ieeefpPath) (hnew : p ∉ st.once) :
    enteredOf env st ieeefpPath ieeefp = [p] := by
  have h := includeFile_ieeefp_other env st hother hfresh
  simp [enteredOf, h, hfound, hne, hnew]

/-- C7: with `_MSC_VER` not defined and the compatibility directory on the
search path before a system directory that holds `ieeefp.h`, the probe
`__has_include(<ieeefp.h>)` is true and `#include <ieeefp.h>` is executed,
but the file it finds is the compatibility header itself, which
`#pragma once` drops: no file is brought in, and the system `ieeefp.h`,
which `#include_next` would have found, is not included. -/
theorem ieeefp_other_misses_system_header :
    otherStart.isDefined "_MSC_VER" = false ∧
    bsdEnv.hasInclude "ieeefp.h" = true ∧
    bsdEnv.resolve "ieeefp.h" = some ieeefpPath ∧
    bsdEnv.resolveNext ieeefpPath "ieeefp.h" = some "/usr/include/ieeefp.h" ∧
    preprocess bsdEnv otherStart ieeefpPath ieeefp =
      .ok ({ defs := [], once := [ieeefpPath] }, [ .includeSys "ieeefp.h" ]) ∧
    enteredOf bsdEnv otherStart ieeefpPath ieeefp = [] ∧
    fatalOf bsdEnv otherStart ieeefpPath ieeefp = none :=
  ⟨by decide, by decide, by decide, by decide, rfl, by decide, by decide⟩

/-- C8: when `ieeefp.h` of the compatibility set is included with
`_MSC_VER` defined (and has not been included before), its whole output is
the single directive `#include <float.h>`, whatever the environment says about the
availability of a system `ieeefp.h`; `ieeefp.h` is not requested. -/
theorem ieeefp_msvc_includes_float (env : Env) (st : PPState)
    (hmsvc : st.isDefined "_MSC_VER" = true)
    (hfresh : ieeefpPath ∉ st.once) :
    ∃ st' out, preprocess env st ieeefpPath ieeefp = .ok (st', out) ∧
      out = [ .includeSys "float.h" ] ∧
      includesOf out = ["float.h"] ∧ "ieeefp.h" ∉ includesOf out ∧
      includeNextsOf out = [] := by
  refine ⟨_, _, preprocess_ieeefp_msvc env st hmsvc hfresh, rfl, ?_, ?_, ?_⟩ <;>
  simp [includesOf, includeNextsOf]

/-- Witness of C8 at a fresh MSVC translation unit, in an environment where a
system `ieeefp.h` exists. -/
theorem ieeefp_msvc_includes_float_witness :
    msvcStart.isDefined "_MSC_VER" = true ∧ ieeefpPath ∉ msvcStart.once ∧
    ∃ st' out, preprocess bsdEnv msvcStart ieeefpPath ieeefp = .ok (st', out) ∧
      out = [ .includeSys "float.h" ] ∧
      includesOf out = ["float.h"] ∧ "ieeefp.h" ∉ includesOf out ∧
      includeNextsOf out = [] :=
  ⟨by decide, by decide, ieeefp_msvc_includes_float bsdEnv msvcStart (by decide) (by decide)⟩

/-! ## Claims about the type definitions -/

theorem keeps_lookup (st : PPState) (ts : List Tok) (h : st.keeps ts = true) :
    ∀ t ∈ ts, lookupDef t st.defs = none := by
  intro t ht
  simp only [PPState.keeps, List.all_eq_true] at h
  simpa using h t ht

/-- Text of the two type definitions passes through a state that keeps their
tokens. -/
theorem keeps_expand (st : PPState) (h : st.keeps declTokens = true) (ts : List Tok)
    (hsub : ∀ t ∈ ts, t ∈ declTokens) : expand st.defs ts = ts :=
  expand_undefined _ _ fun t ht => keeps_lookup st _ h t (hsub t ht)

/-- Result of including the extension `unistd.h` on the MSVC branch, read as
type definitions. -/
theorem typedefsOf_extUnistd_msvc (env : Env) (st : PPState)
    (hmsvc : st.isDefined "_MSC_VER" = true)
    (hfresh : extUnistdPath ∉ st.once)
    (hres : env.resolvesAll extUnistdHeaders = true)
    (hkeeps : st.keeps declTokens = true) :
    ∃ st' out, preprocess env st extUnistdPath extUnistd = .ok (st', out) ∧
      typedefsOf out = [("ssize_t", ["long"]), ("pid_t", ["int"])] := by
  refine ⟨_, _, preprocess_extUnistd_msvc env st hmsvc hfresh hres, ?_⟩
  rw [keeps_expand st hkeeps _ (by simp [declTokens]),
    keeps_expand st hkeeps _ (by simp [declTokens])]
  simp [typedefsOf, parseTypedef]

/-- The second type definition of the bindings-generation stub passes
through a table that leaves the tokens of the declarations alone, with the
guard name added. -/
theorem expand_pid_line (tbl : DefTable) (htbl : ∀ t ∈ declTokens, lookupDef t tbl = none) :
    expand (addDef "_PID_T_DEFINED" [] tbl) ["typedef", "int", "pid_t", ";"] =
      ["typedef", "int", "pid_t", ";"] := by
  apply expand_undefined
  intro t ht
  have hd : t ∈ declTokens := by
    simp only [List.mem_cons, List.mem_nil_iff, or_false] at ht
    rcases ht with rfl | rfl | rfl | rfl <;> simp [declTokens]
  have h0 := htbl t hd
  simp only [List.mem_cons, List.mem_nil_iff, or_false] at ht
  rcases ht with rfl | rfl | rfl | rfl <;> simp [lookupDef_addDef, h0]

/-- Adding the guard name of `ssize_t` leaves the tokens of the declarations
alone. -/
theorem keeps_after_ssize_guard (tbl : DefTable)
    (htbl : ∀ t ∈ declTokens, lookupDef t tbl = none) :
    ∀ t ∈ declTokens, lookupDef t (addDef "_SSIZE_T_DEFINED" [] tbl) = none := by
  intro t ht
  have h0 := htbl t ht
  simp only [declTokens, List.mem_cons, List.mem_nil_iff, or_false] at ht
  rcases ht with rfl | rfl | rfl | rfl | rfl | rfl <;> simp [lookupDef_addDef, h0]

/-- C5 fails where a definition in force rewrites a token of the
declarations, and where a platform header is missing: in an MSVC
translation unit that has done `#define ssize_t __int64`, the extension
`unistd.h` and the bindings-generation stub both give the name `__int64`,
not `ssize_t`, the type `long`; and with no `io.h` on the search path the
extension `unistd.h` makes no type definition at all. -/
theorem unistd_variants_types_rewritten :
    configuredStart.isDefined "_MSC_VER" = true ∧
    configuredStart.isDefined "_SSIZE_T_DEFINED" = false ∧
    configuredStart.isDefined "_PID_T_DEFINED" = false ∧
    typedefsOf (eventsOf windowsEnv configuredStart extUnistdPath extUnistd) =
      [("__int64", ["long"]), ("pid_t", ["int"])] ∧
    typedefsOf (eventsOf windowsEnv configuredStart bindgenUnistdPath bindgenUnistd) =
      [("__int64", ["long"]), ("pid_t", ["int"])] ∧
    typeOfName "ssize_t"
      (typedefsOf (eventsOf windowsEnv configuredStart extUnistdPath extUnistd)) = none ∧
    typedefsOf (eventsOf bareEnv msvcStart extUnistdPath extUnistd) = [] := by
  decide

/-- C5, amended: included for the first time with `_MSC_VER` defined, where
`io.h`, `process.h` and `direct.h` are found and no definition in force
rewrites a token of the two declarations, the extension `unistd.h` defines
`ssize_t` as `long` and `pid_t` as `int`, which is 32 bits wide on both MSVC
targets; included for the first time where neither guard name is defined
and no definition in force rewrites a token of the two declarations, the
bindings-generation stub makes the same two type definitions. -/
theorem unistd_variants_agree_on_types (env : Env) (st sb : PPState)
    (hmsvc : st.isDefined "_MSC_VER" = true)
    (hfresh : extUnistdPath ∉ st.once)
    (hres : env.resolvesAll extUnistdHeaders = true)
    (hkeeps : st.keeps declTokens = true)
    (hssize : sb.isDefined "_SSIZE_T_DEFINED" = false)
    (hpid : sb.isDefined "_PID_T_DEFINED" = false)
    (hfreshb : bindgenUnistdPath ∉ sb.once)
    (hkeepsb : sb.keeps declTokens = true) :
    ∃ st' out sb' outb,
      preprocess env st extUnistdPath extUnistd = .ok (st', out) ∧
      fatalOf env st extUnistdPath extUnistd = none ∧
      preprocess env sb bindgenUnistdPath bindgenUnistd = .ok (sb', outb) ∧
      typedefsOf out = [("ssize_t", ["long"]), ("pid_t", ["int"])] ∧
      typedefsOf outb = [("ssize_t", ["long"]), ("pid_t", ["int"])] ∧
      (∀ dm ∈ msvcTargets, widthOf dm "pid_t" out = some 32) := by
  obtain ⟨st', out, hrun, htd⟩ := typedefsOf_extUnistd_msvc env st hmsvc hfresh hres hkeeps
  refine ⟨st', out, _, _, hrun, fatalOf_extUnistd_msvc env st hmsvc hfresh hres,
    preprocess_bindgenUnistd env sb hfreshb, htd, ?_, ?_⟩
  · have hk := keeps_lookup sb _ hkeepsb
    have e1 : expand sb.defs ["typedef", "long", "ssize_t", ";"] =
        ["typedef", "long", "ssize_t", ";"] :=
      keeps_expand sb hkeepsb _ (by simp [declTokens])
    have e2 := expand_pid_line _ (keeps_after_ssize_guard _ hk)
    simp [hssize, hpid, e1, e2, typedefsOf, parseTypedef]
  · intro dm hdm
    simp only [msvcTargets, List.mem_cons, List.mem_nil_iff, or_false] at hdm
    rcases hdm with rfl | rfl <;>
    simp [widthOf, htd, typeOfName, typeBits, msvc32, msvc64]

/-- Witness of the amended C5 at fresh translation units in the Windows
environment. -/
theorem unistd_variants_agree_on_types_witness :
    ∃ st' out sb' outb,
      preprocess windowsEnv msvcStart extUnistdPath extUnistd = .ok (st', out) ∧
      fatalOf windowsEnv msvcStart extUnistdPath extUnistd = none ∧
      preprocess windowsEnv msvcStart bindgenUnistdPath bindgenUnistd = .ok (sb', outb) ∧
      typedefsOf out = [("ssize_t", ["long"]), ("pid_t", ["int"])] ∧
      typedefsOf outb = [("ssize_t", ["long"]), ("pid_t", ["int"])] ∧
      (∀ dm ∈ msvcTargets, widthOf dm "pid_t" out = some 32) :=
  unistd_variants_agree_on_types windowsEnv msvcStart msvcStart (by decide) (by decide)
    (by decide) (by decide) (by decide) (by decide) (by decide) (by decide)

/-- C6 fails where a definition in force rewrites a token of the
declarations: in a translation unit that has done `#define ssize_t __int64`,
the bindings-generation stub hands on `typedef long __int64 ;`, so the type
name it introduces is neither `ssize_t` nor `pid_t`. -/
theorem bindgenUnistd_type_name_rewritten :
    preprocess windowsEnv configuredStart bindgenUnistdPath bindgenUnistd =
      .ok ({ defs := [("_PID_T_DEFINED", []), ("_SSIZE_T_DEFINED", []),
                      ("ssize_t", ["__int64"]), ("_MSC_VER", ["1900"])],
             once := [bindgenUnistdPath] },
           [ .text ["typedef", "long", "__int64", ";"],
             .define "_SSIZE_T_DEFINED" [],
             .define "_PID_T_DEFINED" [],
             .text ["typedef", "int", "pid_t", ";"] ]) ∧
    ("__int64", ["long"]) ∈
      typedefsOf (eventsOf windowsEnv configuredStart bindgenUnistdPath bindgenUnistd) ∧
    "__int64" ≠ "ssize_t" ∧ "__int64" ≠ "pid_t" :=
  ⟨rfl, by decide, by decide, by decide⟩

/-- C6, amended: in every state, with or without `_MSC_VER`, guard names or
an earlier inclusion, the bindings-generation stub is processed without
error and without stopping; it executes no `#include` and no
`#include_next`, the only names it defines are `_SSIZE_T_DEFINED` and
`_PID_T_DEFINED`, and no name of the rename table is defined or changed;
and in every state in which no definition in force rewrites a token of the
two declarations, every text line it hands on is a type definition of
`ssize_t` or of `pid_t`, so no function is declared. -/
theorem bindgenUnistd_only_types (env : Env) (st : PPState) :
    ∃ st' out, preprocess env st bindgenUnistdPath bindgenUnistd = .ok (st', out) ∧
      fatalOf env st bindgenUnistdPath bindgenUnistd = none ∧
      includesOf out = [] ∧ includeNextsOf out = [] ∧
      (∀ d ∈ definesOf out, d.1 = "_SSIZE_T_DEFINED" ∨ d.1 = "_PID_T_DEFINED") ∧
      (∀ r ∈ specRenameTable, (∀ d ∈ definesOf out, d.1 ≠ r.1) ∧
        lookupDef r.1 st'.defs = lookupDef r.1 st.defs) ∧
      (st.keeps declTokens = true →
        otherDeclsOf out = [] ∧
        (∀ d ∈ typedefsOf out, d.1 = "ssize_t" ∨ d.1 = "pid_t")) := by
  by_cases hseen : bindgenUnistdPath ∈ st.once
  · refine ⟨_, _, preprocess_seen env st _ _ hseen, ?_, ?_⟩
    · simp [fatalOf, includeFile, hseen]
    · simp [includesOf, includeNextsOf, otherDeclsOf, typedefsOf, definesOf]
  · refine ⟨_, _, preprocess_bindgenUnistd env st hseen, ?_, ?_, ?_, ?_, ?_, ?_⟩
    · rcases Bool.eq_false_or_eq_true (lookupDef "_SSIZE_T_DEFINED" st.defs).isSome
        with hs | hs <;>
      rcases Bool.eq_false_or_eq_true (lookupDef "_PID_T_DEFINED" st.defs).isSome
        with hq | hq <;>
      simp [fatalOf, includeFile, hseen, bindgenUnistd, run, Ctx.live, Ctx.push, Ctx.emit,
        Cond.live, PPState.isDefined, hs, hq, lookupDef_addDef]
    · rcases Bool.eq_false_or_eq_true (st.isDefined "_SSIZE_T_DEFINED") with hs | hs <;>
      rcases Bool.eq_false_or_eq_true (st.isDefined "_PID_T_DEFINED") with hq | hq <;>
      simp [hs, hq, includesOf]
    · rcases Bool.eq_false_or_eq_true (st.isDefined "_SSIZE_T_DEFINED") with hs | hs <;>
      rcases Bool.eq_false_or_eq_true (st.isDefined "_PID_T_DEFINED") with hq | hq <;>
      simp [hs, hq, includeNextsOf]
    · rcases Bool.eq_false_or_eq_true (st.isDefined "_SSIZE_T_DEFINED") with hs | hs <;>
      rcases Bool.eq_false_or_eq_true (st.isDefined "_PID_T_DEFINED") with hq | hq <;>
      simp [hs, hq, definesOf]
    · rcases Bool.eq_false_or_eq_true (st.isDefined "_SSIZE_T_DEFINED") with hs | hs <;>
      rcases Bool.eq_false_or_eq_true (st.isDefined "_PID_T_DEFINED") with hq | hq <;>
      simp [hs, hq, definesOf, specRenameTable, lookupDef_addDef]
    · intro hkeeps
      have hk := keeps_lookup st _ hkeeps
      have e1 : expand st.defs ["typedef", "long", "ssize_t", ";"] =
          ["typedef", "long", "ssize_t", ";"] :=
        keeps_expand st hkeeps _ (by simp [declTokens])
      have e2 := expand_pid_line _ hk
      have e3 := expand_pid_line _ (keeps_after_ssize_guard _ hk)
      rcases Bool.eq_false_or_eq_true (st.isDefined "_SSIZE_T_DEFINED") with hs | hs <;>
      rcases Bool.eq_false_or_eq_true (st.isDefined "_PID_T_DEFINED") with hq | hq <;>
      simp [hs, hq, e1, e2, e3, otherDeclsOf, typedefsOf, parseTypedef]

/-- Witness of the amended C6 at a fresh MSVC translation unit. -/
theorem bindgenUnistd_only_types_witness :
    msvcStart.keeps declTokens = true ∧
    ∃ st' out, preprocess windowsEnv msvcStart bindgenUnistdPath bindgenUnistd = .ok (st', out) ∧
      includesOf out = [] ∧ includeNextsOf out = [] ∧
      (∀ d ∈ definesOf out, d.1 = "_SSIZE_T_DEFINED" ∨ d.1 = "_PID_T_DEFINED") ∧
      otherDeclsOf out = [] ∧
      (∀ d ∈ typedefsOf out, d.1 = "ssize_t" ∨ d.1 = "pid_t") := by
  obtain ⟨st', out, hrun, _, hinc, hnext, hdef, _, htypes⟩ :=
    bindgenUnistd_only_types windowsEnv msvcStart
  exact ⟨by decide, st', out, hrun, hinc, hnext, hdef, (htypes (by decide)).1,
    (htypes (by decide)).2⟩

/-- C3: with both guard names already defined, the bindings-generation stub
leaves `pid_t` alone but still defines `ssize_t`: its output is the line
`typedef long ssize_t ;`. -/
theorem bindgenUnistd_redefines_guarded_ssize_t :
    guardedStart.isDefined "_SSIZE_T_DEFINED" = true ∧
    guardedStart.isDefined "_PID_T_DEFINED" = true ∧
    preprocess windowsEnv guardedStart bindgenUnistdPath bindgenUnistd =
      .ok ({ defs := guardedStart.defs, once := [bindgenUnistdPath] },
           [ .text ["typedef", "long", "ssize_t", ";"] ]) := by
  refine ⟨by decide, by decide, ?_⟩
  rw [preprocess_bindgenUnistd windowsEnv guardedStart (by decide)]
  have e : expand guardedStart.defs ["typedef", "long", "ssize_t", ";"] =
      ["typedef", "long", "ssize_t", ";"] :=
    keeps_expand guardedStart (by decide) _ (by simp [declTokens])
  have hs : guardedStart.isDefined "_SSIZE_T_DEFINED" = true := by decide
  have hq : guardedStart.isDefined "_PID_T_DEFINED" = true := by decide
  simp only [hs, hq, e, if_true, id, List.append_nil]
  rfl

/-- The guard of `pid_t` works: where `_PID_T_DEFINED` is defined, the
bindings-generation stub makes no type definition of `pid_t`. -/
theorem bindgenUnistd_pid_t_guarded (env : Env) (st : PPState)
    (hkeeps : st.keeps declTokens = true)
    (hpid : st.isDefined "_PID_T_DEFINED" = true) :
    ∃ st' out, preprocess env st bindgenUnistdPath bindgenUnistd = .ok (st', out) ∧
      ∀ d ∈ typedefsOf out, d.1 ≠ "pid_t" := by
  by_cases hseen : bindgenUnistdPath ∈ st.once
  · exact ⟨_, _, preprocess_seen env st _ _ hseen, by simp [typedefsOf]⟩
  · refine ⟨_, _, preprocess_bindgenUnistd env st hseen, ?_⟩
    have e1 : expand st.defs ["typedef", "long", "ssize_t", ";"] =
        ["typedef", "long", "ssize_t", ";"] :=
      keeps_expand st hkeeps _ (by simp [declTokens])
    rcases Bool.eq_false_or_eq_true (st.isDefined "_SSIZE_T_DEFINED") with hs | hs <;>
    simp [hs, hpid, e1, typedefsOf, parseTypedef]

/-- Including the bindings-generation stub a second time contributes
nothing. -/
theorem bindgenUnistd_twice (env : Env) (st : PPState)
    (hfresh : bindgenUnistdPath ∉ st.once) :
    ∃ st' out, preprocess env st bindgenUnistdPath bindgenUnistd = .ok (st', out) ∧
      preprocess env st' bindgenUnistdPath bindgenUnistd = .ok (st', []) := by
  refine ⟨_, _, preprocess_bindgenUnistd env st hfresh, ?_⟩
  exact preprocess_seen env _ _ _ (by simp)

/-! ## Range of `ssize_t` -/

/-- Events of the extension `unistd.h` in a fresh MSVC translation unit. -/
theorem eventsOf_extUnistd_msvcStart :
    typedefsOf (eventsOf windowsEnv msvcStart extUnistdPath extUnistd) =
      [("ssize_t", ["long"]), ("pid_t", ["int"])] := by
  obtain ⟨st', out, hrun, htd⟩ :=
    typedefsOf_extUnistd_msvc windowsEnv msvcStart (by decide) (by decide) (by decide)
      (by decide)
  simp [eventsOf, hrun, htd]

/-- C9 fails on the 64-bit MSVC target: `ssize_t` of the extension
`unistd.h` is 32 bits wide there, and the byte count 2147483648, which is
below the maximum of the signed counterpart of the 64-bit `size_t`, is not
representable in it. -/
theorem ssize_t_narrow_on_msvc64 :
    msvc64 ∈ msvcTargets ∧
    widthOf msvc64 "ssize_t" (eventsOf windowsEnv msvcStart extUnistdPath extUnistd) = some 32 ∧
    (0 : Int) ≤ 2147483648 ∧ (2147483648 : Int) ≤ signedMax msvc64.sizeBits ∧
    fits 32 2147483648 = false := by
  refine ⟨by decide, ?_, by decide, by decide, by decide⟩
  simp [widthOf, eventsOf_extUnistd_msvcStart, typeOfName, typeBits, msvc64]

/-- C9, amended: on every MSVC target, where the extension `unistd.h` is
included for the first time with `_MSC_VER` defined, `io.h`, `process.h` and
`direct.h` are found and no definition in force rewrites a token of the two
declarations, the translation runs through the header and its `ssize_t` is
`long`, a signed type of 32 bits; it represents the error sentinel -1 and
every value from 0 to 2147483647, and this covers every value up to the
maximum of the signed counterpart of `size_t` on a target whose `size_t` is
32 bits wide. -/
theorem ssize_t_range_on_msvc (env : Env) (st : PPState) (dm : DataModel)
    (hdm : dm ∈ msvcTargets)
    (hmsvc : st.isDefined "_MSC_VER" = true)
    (hfresh : extUnistdPath ∉ st.once)
    (hres : env.resolvesAll extUnistdHeaders = true)
    (hkeeps : st.keeps declTokens = true) :
    ∃ st' out, preprocess env st extUnistdPath extUnistd = .ok (st', out) ∧
      fatalOf env st extUnistdPath extUnistd = none ∧
      typeOfName "ssize_t" (typedefsOf out) = some ["long"] ∧
      widthOf dm "ssize_t" out = some 32 ∧
      fits 32 (-1) = true ∧
      (∀ v : Int, 0 ≤ v → v ≤ 2147483647 → fits 32 v = true) ∧
      (dm.sizeBits = 32 → ∀ v : Int, 0 ≤ v → v ≤ signedMax dm.sizeBits → fits 32 v = true) := by
  obtain ⟨st', out, hrun, htd⟩ := typedefsOf_extUnistd_msvc env st hmsvc hfresh hres hkeeps
  have hrange : ∀ v : Int, 0 ≤ v → v ≤ 2147483647 → fits 32 v = true := by
    intro v h0 h1
    simp only [fits, signedMin, signedMax, Bool.and_eq_true, decide_eq_true_eq]
    constructor <;> norm_num <;> omega
  refine ⟨st', out, hrun, fatalOf_extUnistd_msvc env st hmsvc hfresh hres, ?_, ?_, by decide,
    hrange, ?_⟩
  · simp [htd, typeOfName]
  · simp only [msvcTargets, List.mem_cons, List.mem_nil_iff, or_false] at hdm
    rcases hdm with rfl | rfl <;>
    simp [widthOf, htd, typeOfName, typeBits, msvc32, msvc64]
  · intro hs v h0 h1
    apply hrange v h0
    rw [hs] at h1
    simp only [signedMax] at h1
    norm_num at h1
    exact h1

/-- Witness of the amended C9 on the 32-bit MSVC target. -/
theorem ssize_t_range_on_msvc_witness :
    msvc32 ∈ msvcTargets ∧
    ∃ st' out, preprocess windowsEnv msvcStart extUnistdPath extUnistd = .ok (st', out) ∧
      fatalOf windowsEnv msvcStart extUnistdPath extUnistd = none ∧
      typeOfName "ssize_t" (typedefsOf out) = some ["long"] ∧
      widthOf msvc32 "ssize_t" out = some 32 ∧
      fits 32 (-1) = true ∧
      (∀ v : Int, 0 ≤ v → v ≤ 2147483647 → fits 32 v = true) ∧
      (msvc32.sizeBits = 32 →
        ∀ v : Int, 0 ≤ v → v ≤ signedMax msvc32.sizeBits → fits 32 v = true) :=
  ⟨by decide, ssize_t_range_on_msvc windowsEnv msvcStart msvc32 (by decide) (by decide)
    (by decide) (by decide) (by decide)⟩

/-! ## Expansion at call sites -/

/-- A name defined as a single token that is not itself defined expands to
that token. -/
theorem expand_renamed (tbl : DefTable) (n t : Tok)
    (hn : lookupDef n tbl = some [t]) (ht : lookupDef t tbl = none) :
    expand tbl [n] = [t] := by
  unfold expand
  rw [expandWith_defined _ _ _ _ hn]
  apply expandWith_undefined
  intro x hx
  simp only [List.mem_singleton] at hx
  subst hx
  simp [lookupDef_dropDef, ht]

/-- Expansion of a call of a renamed name: the name is replaced by its
target, the parentheses stay, and the arguments are expanded in place. -/
theorem expand_call (tbl : DefTable) (n t : Tok) (args : List Tok)
    (hn : lookupDef n tbl = some [t]) (ht : lookupDef t tbl = none)
    (hl : lookupDef "(" tbl = none) (hr : lookupDef ")" tbl = none) :
    expand tbl (n :: "(" :: (args ++ [")"])) = t :: "(" :: (expand tbl args ++ [")"]) := by
  rw [expand_cons, expand_renamed tbl n t hn ht, expand_cons tbl "(", expand_append,
    expand_undefined tbl ["("] (by simpa using hl),
    expand_undefined tbl [")"] (by simpa using hr)]
  rfl

/-- The definitions in force in a fresh MSVC translation unit after the
extension `unistd.h`. -/
theorem msvcDefs_eq :
    msvcDefs =
      [ ("sleep", ["_sleep"]), ("close", ["_close"]), ("write", ["_write"]),
        ("read", ["_read"]), ("lseek", ["_lseek"]), ("isatty", ["_isatty"]),
        ("getpid", ["_getpid"]), ("unlink", ["_unlink"]), ("ftruncate", ["_chsize"]),
        ("execve", ["_execve"]), ("dup2", ["_dup2"]), ("access", ["_access"]),
        ("_MSC_VER", ["1900"]) ] := by
  unfold msvcDefs defsAfter
  rw [preprocess_extUnistd_msvc windowsEnv msvcStart (by decide) (by decide) (by decide)]
  simp [msvcStart, addDef, dropDef]

/-- The definitions the extension `unistd.h` makes in a fresh MSVC
translation unit are the rows of the specified table. -/
theorem extUnistdDefines_eq : extUnistdDefines = specRenameDefs := by
  unfold extUnistdDefines eventsOf
  rw [preprocess_extUnistd_msvc windowsEnv msvcStart (by decide) (by decide) (by decide)]
  simp [definesOf, specRenameDefs, specRenameTable]

/-- C2 fails where an argument is itself a renamed name: after the extension
`unistd.h`, the call `close ( dup2 ( a , b ) )` expands to
`_close ( _dup2 ( a , b ) )`, whose argument list differs from the
original. -/
theorem call_site_arguments_expanded :
    ("close", "_close") ∈ specRenameTable ∧
    expand msvcDefs ("close" :: "(" :: (["dup2", "(", "a", ",", "b", ")"] ++ [")"])) =
      "_close" :: "(" :: (["_dup2", "(", "a", ",", "b", ")"] ++ [")"]) ∧
    expand msvcDefs ("close" :: "(" :: (["dup2", "(", "a", ",", "b", ")"] ++ [")"])) ≠
      "_close" :: "(" :: (["dup2", "(", "a", ",", "b", ")"] ++ [")"]) := by
  have h : expand msvcDefs ("close" :: "(" :: (["dup2", "(", "a", ",", "b", ")"] ++ [")"])) =
      "_close" :: "(" :: (["_dup2", "(", "a", ",", "b", ")"] ++ [")"]) := by
    rw [msvcDefs_eq]
    decide
  refine ⟨by simp [specRenameTable], h, ?_⟩
  rw [h]
  decide

/-- C2, amended: under MSVC, after the extension `unistd.h` has been
included for the first time, where `io.h`, `process.h` and `direct.h` are
found and the including state defines neither a parenthesis nor one of the
twelve target names, the translation has run through the header and a call
site `n ( args )` of a name of the rename table expands to
`target ( args1 )` where `args1` is the expansion of `args`; the argument
list is the original one whenever no token of it is a defined name. -/
theorem call_site_expansion (env : Env) (st : PPState)
    (hmsvc : st.isDefined "_MSC_VER" = true)
    (hfresh : extUnistdPath ∉ st.once)
    (hres : env.resolvesAll extUnistdHeaders = true)
    (hclean : st.keeps ("(" :: ")" :: specRenameTable.map Prod.snd) = true) :
    ∃ st' out, preprocess env st extUnistdPath extUnistd = .ok (st', out) ∧
      fatalOf env st extUnistdPath extUnistd = none ∧
      ∀ r ∈ specRenameTable, ∀ args : List Tok,
        expand st'.defs (r.1 :: "(" :: (args ++ [")"])) =
          r.2 :: "(" :: (expand st'.defs args ++ [")"]) ∧
        ((∀ a ∈ args, lookupDef a st'.defs = none) →
          expand st'.defs (r.1 :: "(" :: (args ++ [")"])) = r.2 :: "(" :: (args ++ [")"])) := by
  refine ⟨_, _, preprocess_extUnistd_msvc env st hmsvc hfresh hres,
    fatalOf_extUnistd_msvc env st hmsvc hfresh hres, ?_⟩
  have hk := keeps_lookup st _ hclean
  have hl := hk "(" (by simp)
  have hr := hk ")" (by simp)
  have t1 := hk "_access" (by simp [specRenameTable])
  have t2 := hk "_dup2" (by simp [specRenameTable])
  have t3 := hk "_execve" (by simp [specRenameTable])
  have t4 := hk "_chsize" (by simp [specRenameTable])
  have t5 := hk "_unlink" (by simp [specRenameTable])
  have t6 := hk "_getpid" (by simp [specRenameTable])
  have t7 := hk "_isatty" (by simp [specRenameTable])
  have t8 := hk "_lseek" (by simp [specRenameTable])
  have t9 := hk "_read" (by simp [specRenameTable])
  have t10 := hk "_write" (by simp [specRenameTable])
  have t11 := hk "_close" (by simp [specRenameTable])
  have t12 := hk "_sleep" (by simp [specRenameTable])
  intro r hmem args
  have key : ∀ tbl : DefTable, lookupDef r.1 tbl = some [r.2] → lookupDef r.2 tbl = none →
      lookupDef "(" tbl = none → lookupDef ")" tbl = none →
      expand tbl (r.1 :: "(" :: (args ++ [")"])) = r.2 :: "(" :: (expand tbl args ++ [")"]) ∧
      ((∀ a ∈ args, lookupDef a tbl = none) →
        expand tbl (r.1 :: "(" :: (args ++ [")"])) = r.2 :: "(" :: (args ++ [")"])) := by
    intro tbl h1 h2 h3 h4
    have e := expand_call tbl r.1 r.2 args h1 h2 h3 h4
    exact ⟨e, fun hargs => by rw [e, expand_undefined tbl args hargs]⟩
  simp only [specRenameTable, List.mem_cons, List.mem_nil_iff, or_false] at hmem
  rcases hmem with rfl | rfl | rfl | rfl | rfl | rfl | rfl | rfl | rfl | rfl | rfl | rfl <;>
  apply key <;>
  simp [lookupDef_addDef, hl, hr, t1, t2, t3, t4, t5, t6, t7, t8, t9, t10, t11, t12]

/-- Witness of the amended C2: `access ( "f" , 0 )` expands to
`_access ( "f" , 0 )` in a fresh MSVC translation unit. -/
theorem call_site_expansion_witness :
    ∃ st' out, preprocess windowsEnv msvcStart extUnistdPath extUnistd = .ok (st', out) ∧
      expand st'.defs ("access" :: "(" :: (["\"f\"", ",", "0"] ++ [")"])) =
        "_access" :: "(" :: (["\"f\"", ",", "0"] ++ [")"]) := by
  obtain ⟨st', out, hrun, _, hcall⟩ :=
    call_site_expansion windowsEnv msvcStart (by decide) (by decide) (by decide) (by decide)
  refine ⟨st', out, hrun, ?_⟩
  have hst : st'.defs = msvcDefs := by simp [msvcDefs, defsAfter, hrun]
  refine (hcall ("access", "_access") (by simp [specRenameTable]) ["\"f\"", ",", "0"]).2 ?_
  rw [hst, msvcDefs_eq]
  simp [lookupDef]

/-! ## The rename table as a function on identifiers -/

theorem lookupDef_mem (n : String) (b : List Tok) (tbl : DefTable)
    (h : lookupDef n tbl = some b) : (n, b) ∈ tbl := by
  induction tbl with
  | nil => simp [lookupDef] at h
  | cons p rest ih =>
    obtain ⟨m, c⟩ := p
    by_cases hm : n = m
    · subst hm
      simp only [lookupDef, if_true, Option.some.injEq] at h
      subst h
      exact List.mem_cons_self _ _
    · simp only [lookupDef, hm, if_false] at h
      exact List.mem_cons_of_mem _ (ih h)

/-- A renaming none of whose targets is renamed is idempotent. -/
theorem renameOf_idem (tbl : DefTable)
    (h : ∀ p ∈ tbl, ∀ t, p.2 = [t] → lookupDef t tbl = none) (n : String) :
    renameOf tbl (renameOf tbl n) = renameOf tbl n := by
  cases hl : lookupDef n tbl with
  | none => simp [renameOf, hl]
  | some b =>
    match b, hl with
    | [], hl => simp [renameOf, hl]
    | [t], hl =>
      have ht := h (n, [t]) (lookupDef_mem _ _ _ hl) t rfl
      simp [renameOf, hl, ht]
    | _ :: _ :: _, hl => simp [renameOf, hl]

/-- C10: the definitions the extension `unistd.h` makes under MSVC have the
twelve names of the rename table as their keys and send every row to its
listed target; read as a function on identifiers (identity outside the
table) they are injective on the keys, no target is itself a key, the
function is idempotent on every identifier, and the expansion of a key is
its target after one replacement step, which further expansion leaves
unchanged. -/
theorem renameTable_injective_idempotent (a b : String)
    (ha : a ∈ renameKeys) (hb : b ∈ renameKeys) :
    extUnistdDefines.map Prod.fst = renameKeys ∧
    (∀ r ∈ specRenameTable, renameOf extUnistdDefines r.1 = r.2) ∧
    (renameOf extUnistdDefines a = renameOf extUnistdDefines b → a = b) ∧
    renameOf extUnistdDefines a ∉ renameKeys ∧
    lookupDef (renameOf extUnistdDefines a) extUnistdDefines = none ∧
    (∀ n, renameOf extUnistdDefines (renameOf extUnistdDefines n) =
      renameOf extUnistdDefines n) ∧
    expandWith 1 msvcDefs [a] = [renameOf extUnistdDefines a] ∧
    expand msvcDefs [a] = [renameOf extUnistdDefines a] ∧
    expand msvcDefs [renameOf extUnistdDefines a] = [renameOf extUnistdDefines a] := by
  rw [extUnistdDefines_eq, msvcDefs_eq]
  have hrows : ∀ r ∈ specRenameTable, renameOf specRenameDefs r.1 = r.2 := by decide
  have hinj : ∀ x ∈ renameKeys, ∀ y ∈ renameKeys,
      renameOf specRenameDefs x = renameOf specRenameDefs y → x = y := by decide
  have htgt : ∀ x ∈ renameKeys, renameOf specRenameDefs x ∉ renameKeys ∧
      lookupDef (renameOf specRenameDefs x) specRenameDefs = none := by decide
  have hidem : ∀ p ∈ specRenameDefs, ∀ t, p.2 = [t] → lookupDef t specRenameDefs = none := by
    intro p hp t ht
    simp only [specRenameDefs, specRenameTable, List.map, List.mem_cons, List.mem_nil_iff,
      or_false] at hp
    rcases hp with rfl | rfl | rfl | rfl | rfl | rfl | rfl | rfl | rfl | rfl | rfl | rfl <;>
    · simp only [List.cons.injEq, and_true] at ht
      subst ht
      decide
  refine ⟨by decide, hrows, hinj a ha b hb, (htgt a ha).1, (htgt a ha).2,
    renameOf_idem _ hidem, ?_, ?_, ?_⟩
  · revert a; decide
  · revert a; decide
  · revert a; decide

/-- Witness of C10 at the rows `ftruncate` and `unlink`. -/
theorem renameTable_injective_idempotent_witness :
    "ftruncate" ∈ renameKeys ∧ "unlink" ∈ renameKeys ∧
    renameOf extUnistdDefines "ftruncate" = "_chsize" ∧
    (renameOf extUnistdDefines "ftruncate" = renameOf extUnistdDefines "unlink" →
      "ftruncate" = "unlink") ∧
    expand msvcDefs ["ftruncate"] = [renameOf extUnistdDefines "ftruncate"] :=
  have h := renameTable_injective_idempotent "ftruncate" "unlink" (by decide) (by decide)
  ⟨by decide, by decide, h.2.1 ("ftruncate", "_chsize") (by decide), h.2.2.1,
    h.2.2.2.2.2.2.2.1⟩

end Spikard
